import Mathlib

/-!
# Verification of the grafana-tempo TraceQL core and vparquet trace lookup

A shallow embedding of two subsystems of the repository:

* the TraceQL expression language core (`pkg/traceql/ast.go`,
  `pkg/traceql/ast_validate.go`): typed values (`Static`), the expression
  tree, the validator and the span-set pipeline evaluator;
* the columnar block lookup path
  (`tempodb/encoding/vparquet/block_findtracebyid.go`): bloom probe,
  tri-state row-group binary search and in-group predicate scan.

Go `float64` payloads are modelled by an abstract type parameter `F64`
with decidable equality (no claim performs float arithmetic; the payload
only participates in componentwise equality).  Go `int`, `time.Duration`
and the `Status` enum are modelled as `Int`.  Fallible Go functions
returning `(T, error)` are modelled with `Except`/`Option`.
-/

namespace TempoSpec

namespace TraceQL

/-- `StaticType` from pkg/traceql: the tag of a typed value.  The enum
declaration itself (enum.go) is not part of the sources under
verification, but the constants `TypeSpanset`, `TypeAttribute`, `TypeInt`,
`TypeFloat`, `TypeString`, `TypeBoolean`, `TypeNil`, `TypeDuration` and
`TypeStatus` are referenced throughout `ast.go`/`ast_validate.go`; the
constructor list follows the spec (§3).  `bool` stands for the Go
constant `TypeBoolean`. -/
inductive StaticType where
  | spanset
  | attribute
  | int
  | float
  | string
  | bool
  | nil
  | duration
  | status
  deriving DecidableEq, Repr

/-- Modelled from the spec: `isNumeric` (enum.go, not in the sources) is
"true for Int/Float/Duration" (§3). -/
def StaticType.isNumeric (t : StaticType) : Bool :=
  t = .int ∨ t = .float ∨ t = .duration

/-- Modelled from the spec: `isMatchingOperand(a,b)` (enum.go, not in the
sources) is "true iff `a==b`, or either is `Attribute`, or the pair is
`{Int,Status}`" (§3). -/
def StaticType.isMatchingOperand (t otherT : StaticType) : Bool :=
  t = otherT ∨ t = .attribute ∨ otherT = .attribute ∨
    (t = .int ∧ otherT = .status) ∨ (t = .status ∧ otherT = .int)

/-- `Static` from `ast.go` (lines 362-370): one record holding every
payload slot next to a type tag, exactly as the Go struct.  `N : Int`
models the Go `int`, `F : F64` the `float64`, `D : Int` the
`time.Duration` (an int64 nanosecond count) and `StatusV : Int` the
integer `Status` enum (field `Status` in Go; renamed because the Lean
field would collide with the intrinsic name used elsewhere). -/
structure Static (F64 : Type) where
  type : StaticType
  N : Int
  F : F64
  S : String
  B : Bool
  D : Int
  StatusV : Int
  deriving DecidableEq, Repr

/-- `Static.Equals` from `ast.go` (lines 386-395).  Go compares structs
componentwise with `==`; the model uses decidable equality of the whole
record.  `Status(other.N)` converts the int payload to the status enum;
both are `Int` here, so the conversion is the identity. -/
def Static.Equals {F64 : Type} [DecidableEq F64] (s other : Static F64) : Bool :=
  let eitherIsTypeStatus :=
    (s.type = StaticType.status ∧ other.type = StaticType.int) ∨
      (other.type = StaticType.status ∧ s.type = StaticType.int)
  if ¬ eitherIsTypeStatus then decide (s = other)
  else if s.type = StaticType.status then decide (s.StatusV = other.N)
  else decide (s.N = other.StatusV)

/-- `NewStaticInt` from `ast.go`; unset Go fields take their zero value,
modelled by `default`. -/
def NewStaticInt {F64 : Type} [Inhabited F64] (n : Int) : Static F64 :=
  { type := .int, N := n, F := default, S := "", B := false, D := 0, StatusV := 0 }

/-- `NewStaticFloat` from `ast.go`. -/
def NewStaticFloat {F64 : Type} [Inhabited F64] (f : F64) : Static F64 :=
  { type := .float, N := 0, F := f, S := "", B := false, D := 0, StatusV := 0 }

/-- `NewStaticString` from `ast.go`. -/
def NewStaticString {F64 : Type} [Inhabited F64] (s : String) : Static F64 :=
  { type := .string, N := 0, F := default, S := s, B := false, D := 0, StatusV := 0 }

/-- `NewStaticBool` from `ast.go`. -/
def NewStaticBool {F64 : Type} [Inhabited F64] (b : Bool) : Static F64 :=
  { type := .bool, N := 0, F := default, S := "", B := b, D := 0, StatusV := 0 }

/-- `NewStaticNil` from `ast.go`. -/
def NewStaticNil {F64 : Type} [Inhabited F64] : Static F64 :=
  { type := .nil, N := 0, F := default, S := "", B := false, D := 0, StatusV := 0 }

/-- `NewStaticStatus` from `ast.go`. -/
def NewStaticStatus {F64 : Type} [Inhabited F64] (s : Int) : Static F64 :=
  { type := .status, N := 0, F := default, S := "", B := false, D := 0, StatusV := s }

/-- A `Static` pair is in the special Int/Status case of `Equals` when the
tags are `{Int,Status}` in either order (the `eitherIsTypeStatus` test in
the source). -/
def Static.crossIntStatus {F64 : Type} (s other : Static F64) : Prop :=
  (s.type = StaticType.status ∧ other.type = StaticType.int) ∨
    (other.type = StaticType.status ∧ s.type = StaticType.int)

instance {F64 : Type} (s other : Static F64) : Decidable (s.crossIntStatus other) := by
  unfold Static.crossIntStatus; infer_instance

/-- C7: `Static.Equals` treats `Int(n)` and `Status(n)` as equal in both
argument orders for every integer `n`; for every pair of statics whose
tags are not the `{Int,Status}` cross pair, equality holds iff the type
tag and all payload components agree componentwise; and on the cross pair
the comparison reduces to the int payload of the Int side against the
status payload of the Status side (so `Int(n)` vs `Status(m)` is equal
iff `n = m`). -/
theorem c7_static_equals_int_status (F64 : Type) [DecidableEq F64] [Inhabited F64] :
    (∀ n : Int,
      ((NewStaticInt n : Static F64)).Equals (NewStaticStatus n) = true ∧
      ((NewStaticStatus n : Static F64)).Equals (NewStaticInt n) = true) ∧
    (∀ s other : Static F64, ¬ s.crossIntStatus other →
      (s.Equals other = true ↔
        (s.type = other.type ∧ s.N = other.N ∧ s.F = other.F ∧ s.S = other.S ∧
          s.B = other.B ∧ s.D = other.D ∧ s.StatusV = other.StatusV))) ∧
    (∀ s other : Static F64, s.type = StaticType.status → other.type = StaticType.int →
      (s.Equals other = true ↔ s.StatusV = other.N)) ∧
    (∀ s other : Static F64, s.type = StaticType.int → other.type = StaticType.status →
      (s.Equals other = true ↔ s.N = other.StatusV)) := by
  refine ⟨?_, ?_, ?_, ?_⟩
  · intro n
    constructor <;> simp [Static.Equals, NewStaticInt, NewStaticStatus]
  · intro s other h
    have h' : ¬ ((s.type = StaticType.status ∧ other.type = StaticType.int) ∨
        (other.type = StaticType.status ∧ s.type = StaticType.int)) := h
    simp only [Static.Equals, h', not_false_eq_true, if_pos, decide_eq_true_eq]
    constructor
    · rintro rfl; exact ⟨rfl, rfl, rfl, rfl, rfl, rfl, rfl⟩
    · rintro ⟨h1, h2, h3, h4, h5, h6, h7⟩
      cases s; cases other
      simp_all
  · intro s other hs ho
    have hcross : (s.type = StaticType.status ∧ other.type = StaticType.int) ∨
        (other.type = StaticType.status ∧ s.type = StaticType.int) := Or.inl ⟨hs, ho⟩
    unfold Static.Equals
    rw [if_neg (not_not_intro hcross), if_pos hs]
    simp
  · intro s other hs ho
    have hcross : (s.type = StaticType.status ∧ other.type = StaticType.int) ∨
        (other.type = StaticType.status ∧ s.type = StaticType.int) := Or.inr ⟨ho, hs⟩
    have hne : s.type ≠ StaticType.status := by rw [hs]; intro hc; cases hc
    unfold Static.Equals
    rw [if_neg (not_not_intro hcross), if_neg hne]
    simp

/-- Witness for C7 at concrete inputs: `Int(3) == Status(3)` both ways,
`String "a"` equals itself componentwise, and `Int(1)` differs from
`Status(2)`. -/
theorem c7_static_equals_int_status_witness :
    ((NewStaticInt 3 : Static Int).Equals (NewStaticStatus 3) = true) ∧
    ((NewStaticString "a" : Static Int).Equals (NewStaticString "a") = true) ∧
    ¬ ((NewStaticInt 1 : Static Int).Equals (NewStaticStatus 2) = true) := by
  refine ⟨((c7_static_equals_int_status Int).1 3).1, ?_, ?_⟩
  · exact ((c7_static_equals_int_status Int).2.1 (NewStaticString "a") (NewStaticString "a")
      (by decide)).2 (by decide)
  · intro h
    have := ((c7_static_equals_int_status Int).2.2.2 (NewStaticInt 1) (NewStaticStatus 2)
      rfl rfl).1 h
    exact absurd this (by decide)

/-- `Operator` (enum.go, not in the sources).  The spec (§3) describes it
as "an enumerated symbol with two predicates: `isBoolean()` (true for
comparison, logical, regex match), `binaryTypesValid(l,r)` and
`unaryTypesValid(t)` (purely type-driven legality)".  Modelled from the
spec as the record of those predicate values; `ast.go`/`ast_validate.go`
only ever consult the operator through them. -/
structure Operator where
  isBoolean : Bool
  binaryTypesValid : StaticType → StaticType → Bool
  unaryTypesValid : StaticType → Bool

/-- `AggregateOp` (enum.go, not in the sources); constructors from the
spec (§3): count, sum, avg, min, max.  `ast.go` references only
`aggregateCount`. -/
inductive AggregateOp where
  | count
  | sum
  | avg
  | min
  | max
  deriving DecidableEq, Repr

/-- `AttributeScope` (not in the sources); constructors from the spec
(§3): None, Resource, Span. -/
inductive AttributeScope where
  | none
  | resource
  | span
  deriving DecidableEq, Repr

/-- `Intrinsic` (not in the sources); constructors from the spec (§3):
None, Duration, ChildCount, Name, Status, Parent. -/
inductive Intrinsic where
  | none
  | duration
  | childCount
  | name
  | status
  | parent
  deriving DecidableEq, Repr

/-- `Attribute` from `ast.go` (lines 462-467). -/
structure Attribute where
  scope : AttributeScope
  parent : Bool
  name : String
  intrinsic : Intrinsic
  deriving DecidableEq, Repr

/-- `Attribute.impliedType` from `ast.go` (lines 482-497): dispatch on the
intrinsic, defaulting to `TypeAttribute`. -/
def Attribute.impliedType (a : Attribute) : StaticType :=
  match a.intrinsic with
  | .duration => .duration
  | .childCount => .int
  | .name => .string
  | .status => .status
  | .parent => .nil
  | .none => .attribute

/-- `FieldExpression` from `ast.go`: the implementations of that marker
interface are `BinaryOperation`, `UnaryOperation`, `Static` and
`Attribute` (spec §3); modelled as one inductive, per the spec's design
note §9 on replacing marker interfaces with tagged variants. -/
inductive FieldExpr (F64 : Type) where
  | binary (Op : Operator) (LHS RHS : FieldExpr F64)
  | unary (Op : Operator) (e : FieldExpr F64)
  | static (s : Static F64)
  | attr (a : Attribute)

/-- `impliedType` of a field expression, from `ast.go`:
`BinaryOperation.impliedType` (316-329), `UnaryOperation.impliedType`
(350-353), `Static.impliedType` (382-384), `Attribute.impliedType`. -/
def FieldExpr.impliedType {F64 : Type} : FieldExpr F64 → StaticType
  | .binary op lhs rhs =>
    if op.isBoolean then StaticType.bool
    else
      let t := lhs.impliedType
      if t ≠ StaticType.attribute then t else rhs.impliedType
  | .unary _ e => e.impliedType
  | .static s => s.type
  | .attr a => a.impliedType

/-- `referencesSpan` of a field expression, from `ast.go`:
`BinaryOperation.referencesSpan` (331-333), `UnaryOperation` (355-357),
`Static` (378-380, always false), `Attribute` (499-501, always true). -/
def FieldExpr.referencesSpan {F64 : Type} : FieldExpr F64 → Bool
  | .binary _ lhs rhs => lhs.referencesSpan || rhs.referencesSpan
  | .unary _ e => e.referencesSpan
  | .static _ => false
  | .attr _ => true

/-- The validator errors of `ast_validate.go`, one constructor per
`fmt.Errorf` template.  The Go messages append the offending subtree's
string form (the `String()` methods are not in the sources), which the
model omits; the constructor identifies the template. -/
inductive ValidateErr where
  | binaryMustMatchTypes
  | illegalOperationForTypes
  | illegalOperationForType
  | spanFilterMustBeBool
  | groupingMustReferenceSpan
  | aggregateMustBeNumeric
  | aggregateMustReferenceSpan
  deriving DecidableEq, Repr

/-- `validate` of a field expression, from `ast_validate.go`:
`BinaryOperation.validate` (116-135), `UnaryOperation.validate`
(137-152), `Static.validate` (154-156), `Attribute.validate` (158-160). -/
def FieldExpr.validate {F64 : Type} : FieldExpr F64 → Except ValidateErr Unit
  | .binary op lhs rhs =>
    match lhs.validate with
    | .error err => .error err
    | .ok _ =>
      match rhs.validate with
      | .error err => .error err
      | .ok _ =>
        let lhsT := lhs.impliedType
        let rhsT := rhs.impliedType
        if ¬ lhsT.isMatchingOperand rhsT then .error .binaryMustMatchTypes
        else if ¬ op.binaryTypesValid lhsT rhsT then .error .illegalOperationForTypes
        else .ok ()
  | .unary op e =>
    match e.validate with
    | .error err => .error err
    | .ok _ =>
      let t := e.impliedType
      if t = StaticType.attribute then .ok ()
      else if ¬ op.unaryTypesValid t then .error .illegalOperationForType
      else .ok ()
  | .static _ => .ok ()
  | .attr _ => .ok ()

/-- `GroupOperation.validate` from `ast_validate.go` (lines 19-25).  Note
the order in the source: the `referencesSpan` requirement is checked
BEFORE recursing into the expression (`return o.Expression.validate()` is
the last statement). -/
def GroupOperation.validate {F64 : Type} (Expression : FieldExpr F64) :
    Except ValidateErr Unit :=
  if !Expression.referencesSpan then .error .groupingMustReferenceSpan
  else Expression.validate

/-- `Aggregate.validate` from `ast_validate.go` (lines 52-72): a nil field
expression passes immediately; otherwise recurse, then require a numeric
or Attribute implied type, then `referencesSpan`. -/
def Aggregate.validate {F64 : Type} (e : Option (FieldExpr F64)) :
    Except ValidateErr Unit :=
  match e with
  | none => .ok ()
  | some ex =>
    match ex.validate with
    | .error err => .error err
    | .ok _ =>
      let t := ex.impliedType
      if t ≠ StaticType.attribute ∧ ¬ t.isNumeric then .error .aggregateMustBeNumeric
      else if ¬ ex.referencesSpan then .error .aggregateMustReferenceSpan
      else .ok ()

/-- `Aggregate.impliedType` from `ast.go` (lines 175-181): `TypeInt` when
the op is count or the field expression is nil, else the expression's
implied type. -/
def Aggregate.impliedType {F64 : Type} (agg : AggregateOp) (e : Option (FieldExpr F64)) :
    StaticType :=
  match agg, e with
  | .count, _ => StaticType.int
  | _, none => StaticType.int
  | _, some ex => ex.impliedType

/-- C10: for an `Aggregate` whose field expression is absent (`nil` in
Go), `validate()` succeeds regardless of the aggregate op — the
numeric-type and references-span requirements are not applied — and
`impliedType()` is Int even when the op is sum, avg, min or max. -/
theorem c10_aggregate_nil_field (F64 : Type) :
    ∀ agg : AggregateOp,
      Aggregate.validate (none : Option (FieldExpr F64)) = Except.ok () ∧
      Aggregate.impliedType agg (none : Option (FieldExpr F64)) = StaticType.int := by
  intro agg
  refine ⟨rfl, ?_⟩
  cases agg <;> rfl

/-- An operator whose predicates all answer false; used to build the
concrete expressions for the C9 statements (which operator sits in the
node is irrelevant there, because validation fails before consulting it). -/
def opFalse : Operator :=
  { isBoolean := false, binaryTypesValid := fun _ _ => false,
    unaryTypesValid := fun _ => false }

/-- C9 counterexample: for the GroupOperation over the type-mismatched
constant expression `1 = "x"` (a binary operation over two `Static`
literals with operand types Int and String), `validate` returns the
"grouping field expressions must reference the span" error — not the
field expression's own "binary operations must operate on the same type"
error, which the bare field expression does produce. -/
theorem c9_counterexample_group_error_order :
    GroupOperation.validate
        ((FieldExpr.binary opFalse (FieldExpr.static (NewStaticInt 1))
          (FieldExpr.static (NewStaticString "x"))) : FieldExpr Int) =
      Except.error ValidateErr.groupingMustReferenceSpan ∧
    FieldExpr.validate
        ((FieldExpr.binary opFalse (FieldExpr.static (NewStaticInt 1))
          (FieldExpr.static (NewStaticString "x"))) : FieldExpr Int) =
      Except.error ValidateErr.binaryMustMatchTypes ∧
    ValidateErr.groupingMustReferenceSpan ≠ ValidateErr.binaryMustMatchTypes := by
  refine ⟨rfl, rfl, ?_⟩
  intro h
  cases h

/-- C9 (amended): `GroupOperation.validate` first requires
`referencesSpan()` to be true and only then recurses into its field
expression; hence for every type-mismatched binary operation over
constants the validator surfaces the "grouping field expressions must
reference the span" error (while the field expression alone fails with
the "binary operations must operate on the same type" error), and the
field expression's own error surfaces only when the expression references
the span. -/
theorem c9_group_validate_checks_span_first (F64 : Type) :
    ∀ (op : Operator) (s1 s2 : Static F64),
      ¬ (s1.type.isMatchingOperand s2.type = true) →
      (FieldExpr.validate
          ((FieldExpr.binary op (FieldExpr.static s1) (FieldExpr.static s2)) :
            FieldExpr F64) =
          Except.error ValidateErr.binaryMustMatchTypes) ∧
      (GroupOperation.validate
          ((FieldExpr.binary op (FieldExpr.static s1) (FieldExpr.static s2)) :
            FieldExpr F64) =
          Except.error ValidateErr.groupingMustReferenceSpan) ∧
      (∀ e : FieldExpr F64, e.referencesSpan = true →
        GroupOperation.validate e = e.validate) := by
  intro op s1 s2 hmm
  refine ⟨?_, rfl, ?_⟩
  · show (if ¬ (s1.type.isMatchingOperand s2.type : Bool) then
        (Except.error ValidateErr.binaryMustMatchTypes : Except ValidateErr Unit)
      else if ¬ op.binaryTypesValid s1.type s2.type then
        Except.error ValidateErr.illegalOperationForTypes
      else Except.ok ()) = Except.error ValidateErr.binaryMustMatchTypes
    rw [if_pos]
    simpa using hmm
  · intro e he
    unfold GroupOperation.validate
    rw [he]
    rfl

/-- Witness for C9's amended theorem at the concrete mismatched pair
`Int(1)` / `String "x"`. -/
theorem c9_group_validate_checks_span_first_witness :
    (FieldExpr.validate
        ((FieldExpr.binary opFalse (FieldExpr.static (NewStaticInt 1))
          (FieldExpr.static (NewStaticString "x"))) : FieldExpr Int) =
      Except.error ValidateErr.binaryMustMatchTypes) ∧
    (GroupOperation.validate
        ((FieldExpr.binary opFalse (FieldExpr.static (NewStaticInt 1))
          (FieldExpr.static (NewStaticString "x"))) : FieldExpr Int) =
      Except.error ValidateErr.groupingMustReferenceSpan) ∧
    (∀ e : FieldExpr Int, e.referencesSpan = true →
      GroupOperation.validate e = e.validate) :=
  c9_group_validate_checks_span_first Int opFalse (NewStaticInt 1) (NewStaticString "x")
    (by decide)

/-- `Spanset`: an ordered collection of spans sharing a trace id plus
arbitrary metadata (spec §3).  The struct declaration is not in the
sources; `ast.go` touches only its `Spans` field and copies the rest
wholesale, so the remaining fields are abstracted into one `meta`
component.  `Span` itself is "an abstract record … a lookup surface"
(spec §3) and stays a type parameter. -/
structure Spanset (Span Meta : Type) where
  meta : Meta
  Spans : List Span
  deriving DecidableEq, Repr

/-- `ScalarExpression` (marker interface in `ast.go`): its
implementations are ScalarOperation, Aggregate, Static and an embedded
Pipeline.  Only the Aggregate and Static cases are modelled: the sole
consumer among the claims is `ScalarFilter`, whose `evaluate` ignores its
operands. -/
inductive ScalarExpr (F64 : Type) where
  | aggregate (agg : AggregateOp) (e : Option (FieldExpr F64))
  | static (s : Static F64)

/-- `pipelineElement` from `ast.go`: the implementations asserted at the
bottom of the file (lines 529-535) are Pipeline, Aggregate,
SpansetOperation, SpansetFilter, CoalesceOperation, ScalarFilter and
GroupOperation, modelled as one inductive (spec §9 design note on marker
interfaces).  The `SpansetExpression` operands of a SpansetOperation
(SpansetOperation, SpansetFilter, ScalarFilter, Pipeline) are all
pipeline elements themselves, so they reuse this inductive. -/
inductive PipelineElem (F64 : Type) where
  | pipeline (Elements : List (PipelineElem F64))
  | group (Expression : FieldExpr F64)
  | coalesce
  | aggregate (agg : AggregateOp) (e : Option (FieldExpr F64))
  | spansetOp (Op : Operator) (LHS RHS : PipelineElem F64)
  | spansetFilter (Expression : FieldExpr F64)
  | scalarFilter (op : Operator) (lhs rhs : ScalarExpr F64)

/-- The inner span loop of `SpansetFilter.evaluate` (`ast.go` lines
233-249): execute the filter's field expression at each span; an
execution error aborts the whole call; a result whose type is not
`TypeBoolean` or whose value is false drops the span; `Boolean(true)`
keeps it.  `exec` stands for `FieldExpression.execute`, whose
implementations (ast_execute.go) are not in the sources; the evaluator is
verified for every executor. -/
def SpansetFilter.matchingSpans {F64 Span E : Type}
    (exec : FieldExpr F64 → Span → Except E (Static F64))
    (Expression : FieldExpr F64) : List Span → Except E (List Span)
  | [] => .ok []
  | sp :: rest =>
    match exec Expression sp with
    | .error err => .error err
    | .ok result =>
      if result.type ≠ StaticType.bool then
        SpansetFilter.matchingSpans exec Expression rest
      else if !result.B then
        SpansetFilter.matchingSpans exec Expression rest
      else
        match SpansetFilter.matchingSpans exec Expression rest with
        | .error err => .error err
        | .ok tail => .ok (sp :: tail)

/-- `SpansetFilter.evaluate` from `ast.go` (lines 225-261): skip spansets
with no spans; emit a copy of the spanset restricted to the matching
spans when at least one span matched. -/
def SpansetFilter.evaluate {F64 Span Meta E : Type}
    (exec : FieldExpr F64 → Span → Except E (Static F64))
    (Expression : FieldExpr F64) :
    List (Spanset Span Meta) → Except E (List (Spanset Span Meta))
  | [] => .ok []
  | ss :: rest =>
    if ss.Spans.isEmpty then SpansetFilter.evaluate exec Expression rest
    else
      match SpansetFilter.matchingSpans exec Expression ss.Spans with
      | .error err => .error err
      | .ok ms =>
        if ms.isEmpty then SpansetFilter.evaluate exec Expression rest
        else
          match SpansetFilter.evaluate exec Expression rest with
          | .error err => .error err
          | .ok tail => .ok ({ ss with Spans := ms } :: tail)

mutual

/-- `evaluate` of one pipeline element, from `ast.go`:
`GroupOperation.evaluate` (103-105), `CoalesceOperation.evaluate`
(114-116), `Aggregate.evaluate` (183-185) and `ScalarFilter.evaluate`
(280-282) return their input unchanged; a SpansetFilter filters; a nested
Pipeline runs its elements.  `SpansetOperation.evaluate` is not in the
sources (only the `var _ pipelineElement = (*SpansetOperation)(nil)`
assertion is); Modelled from the spec: §4.2 "Aggregate, GroupOperation,
ScalarFilter, CoalesceOperation, SpansetOperation: this revision
implements these as identity on input". -/
def PipelineElem.evaluate {F64 Span Meta E : Type}
    (exec : FieldExpr F64 → Span → Except E (Static F64)) :
    PipelineElem F64 → List (Spanset Span Meta) → Except E (List (Spanset Span Meta))
  | .pipeline elements, input => Pipeline.evaluate exec elements input
  | .group _, ss => .ok ss
  | .coalesce, ss => .ok ss
  | .aggregate _ _, ss => .ok ss
  | .spansetOp _ _ _, ss => .ok ss
  | .spansetFilter e, input => SpansetFilter.evaluate exec e input
  | .scalarFilter _ _ _, ss => .ok ss

/-- `Pipeline.evaluate` from `ast.go` (lines 76-91): start from the
input, apply each element left-to-right feeding each output to the next;
an element error aborts; an empty intermediate result short-circuits to
the empty list. -/
def Pipeline.evaluate {F64 Span Meta E : Type}
    (exec : FieldExpr F64 → Span → Except E (Static F64)) :
    List (PipelineElem F64) → List (Spanset Span Meta) → Except E (List (Spanset Span Meta))
  | [], result => .ok result
  | element :: rest, result =>
    match PipelineElem.evaluate exec element result with
    | .error err => .error err
    | .ok r => if r.isEmpty then .ok [] else Pipeline.evaluate exec rest r

end

/-- C6: the `evaluate` methods of Aggregate, GroupOperation,
ScalarFilter, CoalesceOperation and SpansetOperation are the identity on
their input list of spansets and never return an error. -/
theorem c6_stub_elements_identity (F64 Span Meta E : Type)
    (exec : FieldExpr F64 → Span → Except E (Static F64))
    (input : List (Spanset Span Meta)) :
    (∀ (agg : AggregateOp) (e : Option (FieldExpr F64)),
      PipelineElem.evaluate exec (.aggregate agg e) input = Except.ok input) ∧
    (∀ ge : FieldExpr F64,
      PipelineElem.evaluate exec (.group ge) input = Except.ok input) ∧
    (∀ (op : Operator) (l r : ScalarExpr F64),
      PipelineElem.evaluate exec (.scalarFilter op l r) input = Except.ok input) ∧
    (PipelineElem.evaluate exec .coalesce input = Except.ok input) ∧
    (∀ (op : Operator) (l r : PipelineElem F64),
      PipelineElem.evaluate exec (.spansetOp op l r) input = Except.ok input) :=
  ⟨fun _ _ => rfl, fun _ => rfl, fun _ _ _ => rfl, rfl, fun _ _ _ => rfl⟩

/-- C5: a pipeline with zero elements returns its input unchanged; a
nonempty pipeline applies its head to the input and feeds the output to
the remaining elements, short-circuiting to the empty list as soon as an
intermediate result is empty; and once a (nonempty) prefix of the
elements has produced the empty list, the final result is the empty list
whatever the remaining elements are — they are never evaluated. -/
theorem c5_pipeline_semantics (F64 Span Meta E : Type)
    (exec : FieldExpr F64 → Span → Except E (Static F64)) :
    (∀ input : List (Spanset Span Meta),
      Pipeline.evaluate exec [] input = Except.ok input) ∧
    (∀ (element : PipelineElem F64) (rest : List (PipelineElem F64))
        (input : List (Spanset Span Meta)),
      Pipeline.evaluate exec (element :: rest) input =
        match PipelineElem.evaluate exec element input with
        | .error err => .error err
        | .ok r => if r.isEmpty then .ok [] else Pipeline.evaluate exec rest r) ∧
    (∀ (xs ys : List (PipelineElem F64)) (input : List (Spanset Span Meta)),
      Pipeline.evaluate exec xs input = Except.ok [] → xs ≠ [] →
      Pipeline.evaluate exec (xs ++ ys) input = Except.ok []) := by
  refine ⟨fun _ => rfl, fun _ _ _ => rfl, ?_⟩
  intro xs
  induction xs with
  | nil => intro ys input _ hne; exact absurd rfl hne
  | cons x rest ih =>
    intro ys input h _
    rw [List.cons_append]
    simp only [Pipeline.evaluate] at h ⊢
    cases hx : PipelineElem.evaluate exec x input with
    | error err => rw [hx] at h; cases h
    | ok r =>
      rw [hx] at h
      dsimp only at h ⊢
      by_cases hr : r.isEmpty
      · rw [if_pos hr]
      · rw [if_neg hr] at h ⊢
        have hrne : rest ≠ [] := by
          intro hnil
          subst hnil
          have hre : r = [] := by simpa [Pipeline.evaluate] using h
          rw [hre] at hr
          exact hr rfl
        exact ih ys r h hrne

/-- C5 witness: the short-circuit part at a false-literal filter followed
by a count aggregate (scenario S5): the prefix already yields `[]`, so
the whole pipeline yields `[]`. -/
theorem c5_pipeline_semantics_witness :
    Pipeline.evaluate
        (fun _ (_ : Nat) => (Except.ok (NewStaticBool false) : Except Unit (Static Int)))
        ([.spansetFilter (.static (NewStaticBool false))] ++ [.aggregate .count none])
        ([⟨(), [1]⟩] : List (Spanset Nat Unit)) = Except.ok [] :=
  (c5_pipeline_semantics Int Nat Unit Unit
      (fun _ (_ : Nat) => Except.ok (NewStaticBool false))).2.2
    [.spansetFilter (.static (NewStaticBool false))] [.aggregate .count none]
    [⟨(), [1]⟩] rfl (by simp)

/-- If the span loop of the filter succeeds, its result is exactly the
sublist of spans whose execution produced `Boolean(true)` (in order). -/
theorem SpansetFilter.matchingSpans_ok {F64 Span E : Type}
    (exec : FieldExpr F64 → Span → Except E (Static F64))
    (Expression : FieldExpr F64) :
    ∀ (l ms : List Span),
      SpansetFilter.matchingSpans exec Expression l = Except.ok ms →
      ms = l.filter (fun sp =>
        match exec Expression sp with
        | .ok result => decide (result.type = StaticType.bool) && result.B
        | .error _ => false) := by
  intro l
  induction l with
  | nil =>
    intro ms h
    simp only [SpansetFilter.matchingSpans, Except.ok.injEq] at h
    simp [← h]
  | cons sp rest ih =>
    intro ms h
    simp only [SpansetFilter.matchingSpans] at h
    cases hx : exec Expression sp with
    | error err => rw [hx] at h; cases h
    | ok result =>
      rw [hx] at h
      dsimp only at h
      rw [List.filter_cons]
      by_cases ht : result.type = StaticType.bool
      · by_cases hb : result.B = true
        · rw [if_neg (not_not_intro ht), if_neg (by simp [hb])] at h
          cases hrec : SpansetFilter.matchingSpans exec Expression rest with
          | error err => rw [hrec] at h; cases h
          | ok tail =>
            rw [hrec] at h
            cases h
            rw [if_pos (by simp [hx, ht, hb])]
            exact congrArg (sp :: ·) (ih tail hrec)
        · replace hb : result.B = false := by
            cases hB : result.B
            · rfl
            · exact absurd hB hb
          rw [if_neg (not_not_intro ht), if_pos (by simp [hb])] at h
          rw [if_neg (by simp [hx, hb])]
          exact ih ms h
      · rw [if_pos ht] at h
        rw [if_neg (by simp [hx, ht])]
        exact ih ms h

/-- C4: when `SpansetFilter.evaluate` succeeds, its output is obtained
from the input by dropping spansets with no spans, keeping in each
remaining spanset exactly the spans at which the field expression
evaluates to `Boolean(true)` (a non-Boolean result silently drops the
span), emitting a copy of a spanset only when at least one span
survived; consequently every output span is one of the input spans —
spans are never fabricated. -/
theorem SpansetFilter.evaluate_ok {F64 Span Meta E : Type}
    (exec : FieldExpr F64 → Span → Except E (Static F64))
    (Expression : FieldExpr F64) :
    ∀ (input out : List (Spanset Span Meta)),
      SpansetFilter.evaluate exec Expression input = Except.ok out →
      out = input.filterMap (fun ss =>
        if ss.Spans.isEmpty then none
        else
          let ms := ss.Spans.filter (fun sp =>
            match exec Expression sp with
            | .ok result => decide (result.type = StaticType.bool) && result.B
            | .error _ => false)
          if ms.isEmpty then none else some { ss with Spans := ms }) := by
  intro input
  induction input with
  | nil =>
    intro out hok
    simp only [SpansetFilter.evaluate, Except.ok.injEq] at hok
    simp [← hok]
  | cons ss rest ih =>
    intro out hok
    simp only [SpansetFilter.evaluate] at hok
    by_cases hemp : ss.Spans.isEmpty
    · rw [if_pos hemp] at hok
      rw [ih out hok]
      rw [List.filterMap_cons_none]
      rw [if_pos hemp]
    · rw [if_neg hemp] at hok
      cases hms : SpansetFilter.matchingSpans exec Expression ss.Spans with
      | error err => rw [hms] at hok; cases hok
      | ok ms =>
        rw [hms] at hok
        dsimp only at hok
        have hmsf := SpansetFilter.matchingSpans_ok exec Expression ss.Spans ms hms
        by_cases hms0 : ms.isEmpty
        · rw [if_pos hms0] at hok
          rw [ih out hok]
          rw [List.filterMap_cons_none]
          rw [if_neg hemp]
          dsimp only
          rw [← hmsf, if_pos hms0]
        · rw [if_neg hms0] at hok
          cases hrest : SpansetFilter.evaluate exec Expression rest with
          | error err => rw [hrest] at hok; cases hok
          | ok tail =>
            rw [hrest] at hok
            dsimp only at hok
            cases hok
            rw [ih tail hrest]
            rw [List.filterMap_cons_some]
            rw [if_neg hemp]
            dsimp only
            rw [← hmsf, if_neg hms0]

/-- C4: when `SpansetFilter.evaluate` succeeds, its output is obtained
from the input by dropping spansets with no spans, keeping in each
remaining spanset exactly the spans at which the field expression
evaluates to `Boolean(true)` (a non-Boolean result silently drops the
span), emitting a copy of a spanset only when at least one span
survived; consequently every output span is one of the input spans —
spans are never fabricated or duplicated into new spansets. -/
theorem c4_spansetFilter_characterization (F64 Span Meta E : Type)
    (exec : FieldExpr F64 → Span → Except E (Static F64))
    (Expression : FieldExpr F64)
    (input out : List (Spanset Span Meta))
    (hok : SpansetFilter.evaluate exec Expression input = Except.ok out) :
    out = input.filterMap (fun ss =>
      if ss.Spans.isEmpty then none
      else
        let ms := ss.Spans.filter (fun sp =>
          match exec Expression sp with
          | .ok result => decide (result.type = StaticType.bool) && result.B
          | .error _ => false)
        if ms.isEmpty then none else some { ss with Spans := ms }) ∧
    ∀ ss ∈ out, ∀ sp ∈ ss.Spans, ∃ ss0 ∈ input, sp ∈ ss0.Spans := by
  have hchar := SpansetFilter.evaluate_ok exec Expression input out hok
  refine ⟨hchar, ?_⟩
  intro ss hss sp hsp
  rw [hchar] at hss
  rw [List.mem_filterMap] at hss
  obtain ⟨ss0, hss0, hf⟩ := hss
  refine ⟨ss0, hss0, ?_⟩
  by_cases hemp : ss0.Spans.isEmpty
  · rw [if_pos hemp] at hf; cases hf
  · rw [if_neg hemp] at hf
    simp only at hf
    by_cases hms0 : (ss0.Spans.filter (fun sp =>
        match exec Expression sp with
        | .ok result => decide (result.type = StaticType.bool) && result.B
        | .error _ => false)).isEmpty
    · rw [if_pos hms0] at hf; cases hf
    · rw [if_neg hms0] at hf
      cases hf
      exact (List.mem_filter.mp hsp).1

/-- C4 witness: a concrete run with two spansets — one with spans 1,2
(only span 1 matches) and one empty — produces the single restricted
spanset, and every output span is an input span. -/
theorem c4_spansetFilter_characterization_witness :
    (([⟨(), [1]⟩] : List (Spanset Nat Unit)) =
      ([⟨(), [1, 2]⟩, ⟨(), []⟩] : List (Spanset Nat Unit)).filterMap (fun ss =>
        if ss.Spans.isEmpty then none
        else
          let ms := ss.Spans.filter (fun sp =>
            match (fun (_ : FieldExpr Int) (sp : Nat) =>
                (Except.ok (NewStaticBool (sp == 1)) : Except Unit (Static Int)))
                (.static (NewStaticBool true)) sp with
            | .ok result => decide (result.type = StaticType.bool) && result.B
            | .error _ => false)
          if ms.isEmpty then none else some { ss with Spans := ms })) ∧
    ∀ ss ∈ ([⟨(), [1]⟩] : List (Spanset Nat Unit)), ∀ sp ∈ ss.Spans,
      ∃ ss0 ∈ ([⟨(), [1, 2]⟩, ⟨(), []⟩] : List (Spanset Nat Unit)), sp ∈ ss0.Spans :=
  c4_spansetFilter_characterization Int Nat Unit Unit
    (fun _ sp => Except.ok (NewStaticBool (sp == 1)))
    (.static (NewStaticBool true))
    [⟨(), [1, 2]⟩, ⟨(), []⟩] [⟨(), [1]⟩] rfl

/-- An error from the span loop of the filter always originates in a
field-expression execution. -/
theorem SpansetFilter.matchingSpans_error {F64 Span E : Type}
    (exec : FieldExpr F64 → Span → Except E (Static F64))
    (Expression : FieldExpr F64) :
    ∀ (l : List Span) (err : E),
      SpansetFilter.matchingSpans exec Expression l = Except.error err →
      ∃ sp, exec Expression sp = Except.error err := by
  intro l
  induction l with
  | nil => intro err h; cases h
  | cons sp rest ih =>
    intro err h
    simp only [SpansetFilter.matchingSpans] at h
    cases hx : exec Expression sp with
    | error e2 =>
      rw [hx] at h
      dsimp only at h
      cases h
      exact ⟨sp, hx⟩
    | ok result =>
      rw [hx] at h
      dsimp only at h
      by_cases ht : result.type = StaticType.bool
      · by_cases hb : result.B = true
        · rw [if_neg (not_not_intro ht), if_neg (by simp [hb])] at h
          cases hrec : SpansetFilter.matchingSpans exec Expression rest with
          | error e2 =>
            rw [hrec] at h
            dsimp only at h
            cases h
            exact ih _ hrec
          | ok tail =>
            rw [hrec] at h
            dsimp only at h
            cases h
        · have hb2 : result.B = false := by
            cases hB : result.B
            · rfl
            · exact absurd hB hb
          rw [if_neg (not_not_intro ht), if_pos (by simp [hb2])] at h
          exact ih err h
      · rw [if_pos ht] at h
        exact ih err h

/-- An error from `SpansetFilter.evaluate` always originates in a
field-expression execution. -/
theorem SpansetFilter.evaluate_error {F64 Span Meta E : Type}
    (exec : FieldExpr F64 → Span → Except E (Static F64))
    (Expression : FieldExpr F64) :
    ∀ (input : List (Spanset Span Meta)) (err : E),
      SpansetFilter.evaluate exec Expression input = Except.error err →
      ∃ sp, exec Expression sp = Except.error err := by
  intro input
  induction input with
  | nil => intro err h; cases h
  | cons ss rest ih =>
    intro err h
    simp only [SpansetFilter.evaluate] at h
    by_cases hemp : ss.Spans.isEmpty
    · rw [if_pos hemp] at h
      exact ih err h
    · rw [if_neg hemp] at h
      cases hms : SpansetFilter.matchingSpans exec Expression ss.Spans with
      | error e2 =>
        rw [hms] at h
        dsimp only at h
        cases h
        exact SpansetFilter.matchingSpans_error exec Expression ss.Spans _ hms
      | ok ms =>
        rw [hms] at h
        dsimp only at h
        by_cases hms0 : ms.isEmpty
        · rw [if_pos hms0] at h
          exact ih err h
        · rw [if_neg hms0] at h
          cases hrest : SpansetFilter.evaluate exec Expression rest with
          | error e2 =>
            rw [hrest] at h
            dsimp only at h
            cases h
            exact ih _ hrest
          | ok tail =>
            rw [hrest] at h
            dsimp only at h
            cases h

mutual

/-- An error from evaluating one pipeline element always originates in a
field-expression execution: no element constructs an error of its own. -/
theorem PipelineElem.evaluate_error_from_exec {F64 Span Meta E : Type}
    (exec : FieldExpr F64 → Span → Except E (Static F64))
    (element : PipelineElem F64) (input : List (Spanset Span Meta)) (err : E)
    (h : PipelineElem.evaluate exec element input = Except.error err) :
    ∃ (fe : FieldExpr F64) (sp : Span), exec fe sp = Except.error err := by
  cases element with
  | pipeline elements => exact Pipeline.evaluate_list_error_from_exec exec elements input err h
  | group e => cases h
  | coalesce => cases h
  | aggregate a e => cases h
  | spansetOp op l r => cases h
  | spansetFilter e =>
    obtain ⟨sp, hsp⟩ := SpansetFilter.evaluate_error exec e input err h
    exact ⟨e, sp, hsp⟩
  | scalarFilter op l r => cases h

/-- An error from running a pipeline always originates in a
field-expression execution. -/
theorem Pipeline.evaluate_list_error_from_exec {F64 Span Meta E : Type}
    (exec : FieldExpr F64 → Span → Except E (Static F64))
    (elements : List (PipelineElem F64)) (input : List (Spanset Span Meta)) (err : E)
    (h : Pipeline.evaluate exec elements input = Except.error err) :
    ∃ (fe : FieldExpr F64) (sp : Span), exec fe sp = Except.error err := by
  cases elements with
  | nil => cases h
  | cons el rest =>
    simp only [Pipeline.evaluate] at h
    cases hx : PipelineElem.evaluate exec el input with
    | error e2 =>
      rw [hx] at h
      dsimp only at h
      cases h
      exact PipelineElem.evaluate_error_from_exec exec el input _ hx
    | ok r =>
      rw [hx] at h
      dsimp only at h
      by_cases hr : r.isEmpty
      · rw [if_pos hr] at h; cases h
      · rw [if_neg hr] at h
        exact Pipeline.evaluate_list_error_from_exec exec rest r err h

end

/-- The evaluation-error kinds the spec names for the evaluator (§7):
`Cancelled`, propagated from the ambient cancellation, and the query
runtime kind.  The evaluator in `ast.go` constructs neither. -/
inductive EvalErr where
  | cancelled
  | queryRuntime
  deriving DecidableEq, Repr

/-- C8 (amended): this revision's evaluator performs no cancellation
checks — the Go `evaluate([]Spanset)` methods receive no context or
token — so every error returned by the pipeline evaluator originates in
a field-expression execution; the evaluator itself never constructs an
error, `Cancelled` or otherwise. -/
theorem c8_evaluator_errors_only_from_exec (F64 Span Meta E : Type)
    (exec : FieldExpr F64 → Span → Except E (Static F64))
    (elements : List (PipelineElem F64)) (input : List (Spanset Span Meta)) (err : E)
    (h : Pipeline.evaluate exec elements input = Except.error err) :
    ∃ (fe : FieldExpr F64) (sp : Span), exec fe sp = Except.error err :=
  Pipeline.evaluate_list_error_from_exec exec elements input err h

/-- An executor that always reports cancellation, used to witness C8's
amended theorem. -/
def execCancelled : FieldExpr Int → Nat → Except EvalErr (Static Int) :=
  fun _ _ => Except.error EvalErr.cancelled

/-- Witness for C8's amended theorem at a concrete failing run. -/
theorem c8_evaluator_errors_only_from_exec_witness :
    ∃ (fe : FieldExpr Int) (sp : Nat),
      execCancelled fe sp = Except.error EvalErr.cancelled :=
  c8_evaluator_errors_only_from_exec Int Nat Unit EvalErr execCancelled
    [.spansetFilter (.static (NewStaticBool true))] [⟨(), [1]⟩] EvalErr.cancelled rfl

/-- C8 counterexample: the evaluator consults no cancellation token (the
Go `evaluate([]Spanset)` methods receive none), so even when the
externally supplied token is cancelled — the hypothesis
`cancelTok = true`, which the evaluator cannot observe — a concrete
evaluation returns its ordinary `ok` result rather than the `Cancelled`
error the claim requires. -/
theorem c8_counterexample_no_cancellation :
    ¬ (∀ cancelTok : Bool, cancelTok = true →
        Pipeline.evaluate
          (fun _ (_ : Nat) =>
            (Except.ok (NewStaticBool true) : Except EvalErr (Static Int)))
          [.spansetFilter (.static (NewStaticBool true))]
          ([⟨(), [1]⟩] : List (Spanset Nat Unit)) =
        Except.error EvalErr.cancelled) := by
  intro hclaim
  have h := hclaim true rfl
  have hok : Pipeline.evaluate
      (fun _ (_ : Nat) =>
        (Except.ok (NewStaticBool true) : Except EvalErr (Static Int)))
      [.spansetFilter (.static (NewStaticBool true))]
      ([⟨(), [1]⟩] : List (Spanset Nat Unit)) = Except.ok [⟨(), [1]⟩] := rfl
  rw [hok] at h
  cases h

end TraceQL

namespace VParquet

/-- Trace identifiers (`common.ID`, a `[]byte`), modelled as lists of
naturals compared byte-wise. -/
abbrev ID : Type := List Nat

/-- `bytes.Compare` from the Go standard library as used by
`FindTraceByID`: lexicographic byte order, a proper prefix ordering
first; its result is exactly -1, 0 or 1, modelled as an `Ordering`. -/
def bytesCompare : List Nat → List Nat → Ordering
  | [], [] => .eq
  | [], _ :: _ => .lt
  | _ :: _, [] => .gt
  | a :: as, b :: bs =>
    if a < b then .lt
    else if b < a then .gt
    else bytesCompare as bs

/-- Strict byte-wise order: `bytes.Compare a b < 0`. -/
def idLt (a b : List Nat) : Prop := bytesCompare a b = Ordering.lt

/-- Non-strict byte-wise order: `bytes.Compare a b <= 0`. -/
def idLe (a b : List Nat) : Prop := bytesCompare a b ≠ Ordering.gt

instance (a b : List Nat) : Decidable (idLt a b) := by
  unfold idLt; infer_instance

instance (a b : List Nat) : Decidable (idLe a b) := by
  unfold idLe; infer_instance

/-- `bytes.Compare` of a byte string with itself is zero. -/
theorem bytesCompare_self (a : List Nat) : bytesCompare a a = Ordering.eq := by
  induction a with
  | nil => rfl
  | cons x xs ih => simpa [bytesCompare] using ih

/-- `bytes.Compare` is zero exactly on equal byte strings. -/
theorem bytesCompare_eq_iff (a b : List Nat) :
    bytesCompare a b = Ordering.eq ↔ a = b := by
  constructor
  · intro h
    induction a generalizing b with
    | nil =>
      cases b with
      | nil => rfl
      | cons y ys => simp [bytesCompare] at h
    | cons x xs ih =>
      cases b with
      | nil => simp [bytesCompare] at h
      | cons y ys =>
        simp only [bytesCompare] at h
        by_cases hxy : x < y
        · rw [if_pos hxy] at h; cases h
        · rw [if_neg hxy] at h
          by_cases hyx : y < x
          · rw [if_pos hyx] at h; cases h
          · rw [if_neg hyx] at h
            have hx : x = y := by omega
            rw [hx, ih ys h]
  · rintro rfl
    exact bytesCompare_self a

/-- `bytes.Compare` antisymmetry: a positive comparison one way is a
negative comparison the other way. -/
theorem bytesCompare_gt_iff_lt (a b : List Nat) :
    bytesCompare a b = Ordering.gt ↔ bytesCompare b a = Ordering.lt := by
  induction a generalizing b with
  | nil =>
    cases b with
    | nil => simp [bytesCompare]
    | cons y ys => simp [bytesCompare]
  | cons x xs ih =>
    cases b with
    | nil => simp [bytesCompare]
    | cons y ys =>
      simp only [bytesCompare]
      by_cases hxy : x < y
      · rw [if_pos hxy, if_neg (by omega : ¬ y < x), if_pos hxy]
        simp
      · rw [if_neg hxy]
        by_cases hyx : y < x
        · rw [if_pos hyx, if_pos hyx]
          simp
        · rw [if_neg hyx, if_neg hxy, if_neg hyx]
          exact ih ys

/-- Transitivity of the strict byte-wise order. -/
theorem idLt_trans : ∀ {a b c : List Nat}, idLt a b → idLt b c → idLt a c := by
  intro a
  induction a with
  | nil =>
    intro b c hab hbc
    cases c with
    | nil =>
      cases b with
      | nil => exact hbc
      | cons y ys => simp [idLt, bytesCompare] at hbc
    | cons z zs => rfl
  | cons x xs ih =>
    intro b c hab hbc
    cases b with
    | nil => simp [idLt, bytesCompare] at hab
    | cons y ys =>
      cases c with
      | nil => simp [idLt, bytesCompare] at hbc
      | cons z zs =>
        simp only [idLt, bytesCompare] at hab hbc ⊢
        by_cases hxy : x < y
        · rw [if_pos hxy] at hab
          by_cases hyz : y < z
          · rw [if_pos (by omega : x < z)]
          · rw [if_neg hyz] at hbc
            by_cases hzy : z < y
            · rw [if_pos hzy] at hbc; cases hbc
            · have : y = z := by omega
              rw [if_pos (by omega : x < z)]
        · rw [if_neg hxy] at hab
          by_cases hyx : y < x
          · rw [if_pos hyx] at hab; cases hab
          · rw [if_neg hyx] at hab
            have hxy2 : x = y := by omega
            subst hxy2
            by_cases hyz : x < z
            · rw [if_pos hyz]
            · rw [if_neg hyz] at hbc ⊢
              by_cases hzy : z < x
              · rw [if_pos hzy] at hbc; cases hbc
              · rw [if_neg hzy] at hbc ⊢
                exact ih hab hbc

/-- The strict byte-wise order is irreflexive. -/
theorem idLt_irrefl (a : List Nat) : ¬ idLt a a := by
  intro h
  rw [idLt, bytesCompare_self] at h
  cases h

/-- The non-strict order is the strict order or equality. -/
theorem idLe_iff (a b : List Nat) : idLe a b ↔ idLt a b ∨ a = b := by
  unfold idLe idLt
  cases h : bytesCompare a b with
  | lt => simp
  | eq => simp [← bytesCompare_eq_iff a b, h]
  | gt =>
    simp only [ne_eq, not_true_eq_false, false_iff, not_or]
    constructor
    · intro hc; cases hc
    · intro hc; rw [hc, bytesCompare_self] at h; cases h

/-- The strict order implies the non-strict order. -/
theorem idLe_of_lt {a b : List Nat} (h : idLt a b) : idLe a b :=
  (idLe_iff a b).mpr (Or.inl h)

/-- The non-strict order is reflexive. -/
theorem idLe_refl (a : List Nat) : idLe a a :=
  (idLe_iff a a).mpr (Or.inr rfl)

/-- le-lt transitivity for the byte-wise order. -/
theorem idLt_of_le_of_lt {a b c : List Nat} (h1 : idLe a b) (h2 : idLt b c) :
    idLt a c := by
  rcases (idLe_iff a b).mp h1 with h | rfl
  · exact idLt_trans h h2
  · exact h2

/-- lt-le transitivity for the byte-wise order. -/
theorem idLt_of_lt_of_le {a b c : List Nat} (h1 : idLt a b) (h2 : idLe b c) :
    idLt a c := by
  rcases (idLe_iff b c).mp h2 with h | rfl
  · exact idLt_trans h1 h
  · exact h1

/-- Transitivity of the non-strict byte-wise order. -/
theorem idLe_trans {a b c : List Nat} (h1 : idLe a b) (h2 : idLe b c) :
    idLe a c := by
  rcases (idLe_iff a b).mp h1 with h | rfl
  · exact idLe_of_lt (idLt_of_lt_of_le h h2)
  · exact h2

/-- The metadata fields of `backendBlock.meta` that `FindTraceByID`
reads: the exact byte-wise bounds of the trace ids stored in the block
(`MaxID` inclusive, spec §3). -/
structure BlockMeta where
  MinID : ID
  MaxID : ID

/-- The lookup-relevant contents of a sealed block.  `rowGroups` holds
the `TraceID` column of each row group in row order (the parquet file and
its iterators live in external packages; a single-value column iterator
over row group `r` yields the first entry of `rowGroups[r]`, the
predicate iterator yields the first matching entry's relative row
number, and `NumRows()` is the length).  `bloom` abstracts the outcome
of the bloom probe for an id: the shard-key computation, blob fetch and
filter deserialization inside `checkBloom` are external to the sources
and are assumed to read cleanly. -/
structure Block where
  meta : BlockMeta
  rowGroups : List (List ID)
  bloom : ID → Bool

/-- `checkBloom` (`block_findtracebyid.go` lines 29-53) reduced to its
outcome: `ShardKeyForTraceID`, the backend `Read` and
`bloom.BloomFilter.ReadFrom`/`Test` are external; with clean reads no
error case remains. -/
def Block.checkBloom (b : Block) (id : ID) : Bool := b.bloom id

/-- `getRowGroupMin` (`block_findtracebyid.go` lines 94-121) as a pure
function of the index.  The Go closure caches bounds in `rowGroupMins`
with `mins[0] = meta.MinID` and `mins[numRowGroups] = meta.MaxID`
preloaded, a slot counting as loaded when its byte string is nonempty; a
miss reads the first trace-id value of row group `rgIdx`.  Loading is
deterministic, so the call-local cache is semantically transparent.
`none` models the error returned when the single-value read yields no
row (index out of range, or an empty row group — "this shouldn't happen
as row groups are never empty"). -/
def getRowGroupMin (b : Block) (numRowGroups rgIdx : Nat) : Option ID :=
  let cached : ID :=
    if rgIdx = 0 then b.meta.MinID
    else if rgIdx = numRowGroups then b.meta.MaxID
    else []
  if cached.length > 0 then some cached
  else (b.rowGroups[rgIdx]?).bind List.head?

/-- The tri-state comparator closure passed to `binarySearch`
(`block_findtracebyid.go` lines 123-149): compare against the group's
min (at most zero returns that comparison); otherwise compare against
the next group's min, where strictly greater — or equal for any but the
last group — sends the search right, and anything else is a match. -/
def compareRowGroup (b : Block) (numRowGroups : Nat) (traceID : ID) (rgIdx : Nat) :
    Option Ordering :=
  match getRowGroupMin b numRowGroups rgIdx with
  | none => none
  | some min =>
    let check := bytesCompare traceID min
    if check ≠ Ordering.gt then some check
    else
      match getRowGroupMin b numRowGroups (rgIdx + 1) with
      | none => none
      | some max =>
        let check2 := bytesCompare traceID max
        if check2 = Ordering.gt ∨ (check2 = Ordering.eq ∧ rgIdx < numRowGroups - 1) then
          some Ordering.gt
        else some Ordering.eq

/-- The loop of `binarySearch` (`block_findtracebyid.go` lines 205-227).
`fuel` bounds the iteration count so that the recursion is structural;
the loop halves `[i, j)` every iteration, so any `fuel ≥ j - i` makes
the exhaustion branch (`none`, conflated with the comparator-error
return) unreachable — `binarySearchGo_spec` proves the result under
exactly that bound.  The comparator returns the `bytes.Compare` values
-1/0/1, modelled as an `Ordering`; a comparator error aborts with
`none`; `some none` is the Go not-found return of -1 and `some (some h)`
an exact match at index `h`. -/
def binarySearchGo (compare : Nat → Option Ordering) :
    Nat → Nat → Nat → Option (Option Nat)
  | 0, i, j => if i < j then none else some none
  | fuel + 1, i, j =>
    if i < j then
      let mid := (i + j) / 2
      match compare mid with
      | none => none
      | some Ordering.eq => some (some mid)
      | some Ordering.lt => binarySearchGo compare fuel i mid
      | some Ordering.gt => binarySearchGo compare fuel (mid + 1) j
    else some none

/-- `binarySearch n compare`: the search over `[0, n)`; fuel `n`
suffices because the interval shrinks every iteration. -/
def binarySearch (n : Nat) (compare : Nat → Option Ordering) : Option (Option Nat) :=
  binarySearchGo compare n 0 n

/-- The externally observable calls of `FindTraceByID` that the claims
track: the bloom probe and the opening of the columnar file
(`openForSearch`).  Every column read of the source — row-group min
loads, the predicate scan, the row seek — goes through the handle
returned by `openForSearch`, so a trace without `openColumnar` had no
column read of any kind. -/
inductive Event where
  | bloomProbe
  | openColumnar
  deriving DecidableEq, Repr

/-- The outcome of `FindTraceByID`: `err` models any non-nil error
return, `notFound` the `(nil, nil)` return, and `found row` a decoded
trace — the decode (`SeekToRow`, `Read`, proto conversion) is external
and deterministic in the absolute row number `row`, so a non-null trace
return is identified with the row it was read from. -/
inductive FindResult where
  | err
  | notFound
  | found (row : Nat)
  deriving DecidableEq, Repr

/-- `FindTraceByID` (`block_findtracebyid.go` lines 55-200) paired with
its event trace.  In source order: bloom probe (a miss returns
`(nil, nil)` before the file is opened); open the columnar file; binary
search for the owning row group with the tri-state comparator (a
comparator error is wrapped and returned, -1 yields `(nil, nil)`); run
the trace-id column of the owning row group through an equality
predicate with one `Next()` (no match yields `(nil, nil)`, the bloom
false-positive path); offset the relative row number by the `NumRows()`
of the preceding row groups and read the row there.  The
`GetColumnIndexByPath` lookup is external and cannot fail in the model,
where the trace-id column is `rowGroups` itself; the out-of-range guard
on the searched index mirrors the Go slice indexing and is provably
unreachable (the search returns an index below `numRowGroups`). -/
def FindTraceByID (b : Block) (traceID : ID) : FindResult × List Event :=
  if !b.checkBloom traceID then (.notFound, [.bloomProbe])
  else
    let numRowGroups := b.rowGroups.length
    match binarySearch numRowGroups (compareRowGroup b numRowGroups traceID) with
    | none => (.err, [.bloomProbe, .openColumnar])
    | some none => (.notFound, [.bloomProbe, .openColumnar])
    | some (some rowGroup) =>
      match b.rowGroups[rowGroup]? with
      | none => (.err, [.bloomProbe, .openColumnar])
      | some rg =>
        match rg.findIdx? (fun idv => idv == traceID) with
        | none => (.notFound, [.bloomProbe, .openColumnar])
        | some rel =>
          let rowMatch := ((b.rowGroups.take rowGroup).map List.length).sum + rel
          (.found rowMatch, [.bloomProbe, .openColumnar])

/-- A trace id is stored in a block when some row group's trace-id
column contains it. -/
def storedIn (b : Block) (traceID : ID) : Prop :=
  ∃ rg ∈ b.rowGroups, traceID ∈ rg

/-- The row-group lower bounds as `getRowGroupMin` loads them under the
well-formedness hypotheses: `meta.MinID` at index 0, `meta.MaxID` at
index `rowGroups.length`, and the first trace id of row group `r` in
between. -/
def minVal (b : Block) (r : Nat) : ID :=
  if r = 0 then b.meta.MinID
  else if r = b.rowGroups.length then b.meta.MaxID
  else ((b.rowGroups[r]?).bind List.head?).getD []

/-- Row group `r` owns `traceID`: the id lies in the bracket
`[minVal r, minVal (r+1))`, whose upper bound is exclusive except for
the final row group, where `minVal (r+1)` is the inclusive `maxID`. -/
def owns (b : Block) (traceID : ID) (r : Nat) : Prop :=
  idLe (minVal b r) traceID ∧
    (idLt traceID (minVal b (r + 1)) ∨
      (traceID = minVal b (r + 1) ∧ r + 1 = b.rowGroups.length))

instance (b : Block) (traceID : ID) (r : Nat) : Decidable (owns b traceID r) := by
  unfold owns
  infer_instance

/-- Under nonempty bounds and nonempty row groups, `getRowGroupMin`
always loads successfully and returns `minVal`. -/
theorem getRowGroupMin_eq_minVal (b : Block)
    (hmin : b.meta.MinID ≠ []) (hmax : b.meta.MaxID ≠ [])
    (hne : ∀ rg ∈ b.rowGroups, rg ≠ []) :
    ∀ r, r ≤ b.rowGroups.length →
      getRowGroupMin b b.rowGroups.length r = some (minVal b r) := by
  intro r hr
  unfold getRowGroupMin minVal
  by_cases h0 : r = 0
  · subst h0
    have hlen : 0 < b.meta.MinID.length := List.length_pos.mpr hmin
    simp [hlen]
  · by_cases hn : r = b.rowGroups.length
    · have hlen : 0 < b.meta.MaxID.length := List.length_pos.mpr hmax
      have hg : b.rowGroups ≠ [] := by
        intro hh
        rw [hh] at hn
        simp at hn
        exact h0 hn
      simp [h0, hn, hlen, hg, hmax]
    · have hrn : r < b.rowGroups.length := by omega
      obtain ⟨rg, hrg⟩ : ∃ rg, b.rowGroups[r]? = some rg :=
        ⟨b.rowGroups[r], List.getElem?_eq_getElem hrn⟩
      have hrgne : rg ≠ [] := hne rg (List.getElem?_mem hrg)
      obtain ⟨hd, tl, rfl⟩ : ∃ hd tl, rg = hd :: tl := by
        cases rg with
        | nil => exact absurd rfl hrgne
        | cons hd tl => exact ⟨hd, tl, rfl⟩
      simp [h0, hn, hrg]

/-- Strict monotonicity of the loaded bounds, from the per-step
ascending hypothesis. -/
theorem minVal_lt_mono (b : Block)
    (hasc : ∀ r, r < b.rowGroups.length → idLt (minVal b r) (minVal b (r + 1))) :
    ∀ r s, r < s → s ≤ b.rowGroups.length → idLt (minVal b r) (minVal b s) := by
  intro r s
  induction s with
  | zero => intro h _; omega
  | succ s ih =>
    intro hrs hsn
    have h : r < s ∨ r = s := by omega
    rcases h with h | h
    · exact idLt_trans (ih h (by omega)) (hasc s (by omega))
    · subst h
      exact hasc r (by omega)

/-- Monotonicity of the loaded bounds. -/
theorem minVal_le_mono (b : Block)
    (hasc : ∀ r, r < b.rowGroups.length → idLt (minVal b r) (minVal b (r + 1))) :
    ∀ r s, r ≤ s → s ≤ b.rowGroups.length → idLe (minVal b r) (minVal b s) := by
  intro r s hrs hsn
  have h : r < s ∨ r = s := by omega
  rcases h with h | h
  · exact idLe_of_lt (minVal_lt_mono b hasc r s h hsn)
  · subst h
    exact idLe_refl _

/-- The comparator in terms of the loaded bounds: it never errors on an
in-range index and its value is determined by the two byte comparisons
of the source. -/
theorem compareRowGroup_eq_some (b : Block) (T : ID)
    (hmin : b.meta.MinID ≠ []) (hmax : b.meta.MaxID ≠ [])
    (hne : ∀ rg ∈ b.rowGroups, rg ≠ [])
    (r : Nat) (hr : r < b.rowGroups.length) :
    compareRowGroup b b.rowGroups.length T r =
      some (
        if bytesCompare T (minVal b r) ≠ Ordering.gt then bytesCompare T (minVal b r)
        else if bytesCompare T (minVal b (r + 1)) = Ordering.gt ∨
            (bytesCompare T (minVal b (r + 1)) = Ordering.eq ∧
              r < b.rowGroups.length - 1) then Ordering.gt
        else Ordering.eq) := by
  unfold compareRowGroup
  rw [getRowGroupMin_eq_minVal b hmin hmax hne r (by omega)]
  dsimp only
  by_cases h1 : bytesCompare T (minVal b r) ≠ Ordering.gt
  · rw [if_pos h1, if_pos h1]
  · rw [if_neg h1, if_neg h1]
    rw [getRowGroupMin_eq_minVal b hmin hmax hne (r + 1) (by omega)]
    dsimp only
    by_cases h2 : bytesCompare T (minVal b (r + 1)) = Ordering.gt ∨
        (bytesCompare T (minVal b (r + 1)) = Ordering.eq ∧ r < b.rowGroups.length - 1)
    · rw [if_pos h2, if_pos h2]
    · rw [if_neg h2, if_neg h2]

/-- `idLe m T` is the negation of `idLt T m` (totality of the byte
order). -/
theorem idLe_iff_not_lt (m T : List Nat) : idLe m T ↔ ¬ idLt T m := by
  unfold idLe idLt
  rw [not_congr (Iff.symm (bytesCompare_gt_iff_lt m T))]

/-- On an in-range index the comparator never errors. -/
theorem compareRowGroup_ne_none (b : Block) (T : ID)
    (hmin : b.meta.MinID ≠ []) (hmax : b.meta.MaxID ≠ [])
    (hne : ∀ rg ∈ b.rowGroups, rg ≠ [])
    (r : Nat) (hr : r < b.rowGroups.length) :
    compareRowGroup b b.rowGroups.length T r ≠ none := by
  rw [compareRowGroup_eq_some b T hmin hmax hne r hr]
  simp

/-- The comparator answers "match" exactly on the owning row group. -/
theorem compareRowGroup_owns_iff (b : Block) (T : ID)
    (hmin : b.meta.MinID ≠ []) (hmax : b.meta.MaxID ≠ [])
    (hne : ∀ rg ∈ b.rowGroups, rg ≠ [])
    (hasc : ∀ r, r < b.rowGroups.length → idLt (minVal b r) (minVal b (r + 1)))
    (r : Nat) (hr : r < b.rowGroups.length) :
    compareRowGroup b b.rowGroups.length T r = some Ordering.eq ↔ owns b T r := by
  rw [compareRowGroup_eq_some b T hmin hmax hne r hr, Option.some.injEq]
  unfold owns
  cases hc1 : bytesCompare T (minVal b r) with
  | lt =>
    rw [if_pos (by decide)]
    constructor
    · intro h; cases h
    · rintro ⟨hle, _⟩
      exact absurd hc1 ((idLe_iff_not_lt _ _).mp hle)
  | eq =>
    rw [if_pos (by decide)]
    have hTeq : T = minVal b r := (bytesCompare_eq_iff _ _).mp hc1
    constructor
    · intro _
      constructor
      · rw [hTeq]; exact idLe_refl _
      · left; rw [hTeq]; exact hasc r hr
    · intro _; rfl
  | gt =>
    rw [if_neg (by decide)]
    have hleT : idLe (minVal b r) T := by
      unfold idLe
      rw [ne_eq, bytesCompare_gt_iff_lt]
      simp [hc1]
    cases hc2 : bytesCompare T (minVal b (r + 1)) with
    | lt =>
      rw [if_neg (by simp)]
      constructor
      · intro _; exact ⟨hleT, Or.inl hc2⟩
      · intro _; rfl
    | eq =>
      have hTeq : T = minVal b (r + 1) := (bytesCompare_eq_iff _ _).mp hc2
      by_cases hrn : r < b.rowGroups.length - 1
      · rw [if_pos (Or.inr ⟨rfl, hrn⟩)]
        constructor
        · intro h; cases h
        · rintro ⟨_, h2 | ⟨_, hn2⟩⟩
          · unfold idLt at h2
            rw [hc2] at h2
            cases h2
          · omega
      · rw [if_neg (by simp [hrn])]
        constructor
        · intro _
          exact ⟨hleT, Or.inr ⟨hTeq, by omega⟩⟩
        · intro _; rfl
    | gt =>
      rw [if_pos (Or.inl rfl)]
      constructor
      · intro h; cases h
      · rintro ⟨_, h2 | ⟨hTeq, _⟩⟩
        · unfold idLt at h2
          rw [h2] at hc2
          cases hc2
        · rw [hTeq, bytesCompare_self] at hc2
          cases hc2

/-- The comparator answers "go left" exactly below the group's lower
bound. -/
theorem compareRowGroup_lt_iff (b : Block) (T : ID)
    (hmin : b.meta.MinID ≠ []) (hmax : b.meta.MaxID ≠ [])
    (hne : ∀ rg ∈ b.rowGroups, rg ≠ [])
    (r : Nat) (hr : r < b.rowGroups.length) :
    compareRowGroup b b.rowGroups.length T r = some Ordering.lt ↔
      idLt T (minVal b r) := by
  rw [compareRowGroup_eq_some b T hmin hmax hne r hr, Option.some.injEq]
  unfold idLt
  cases hc1 : bytesCompare T (minVal b r) with
  | lt => rw [if_pos (by decide)]
  | eq => rw [if_pos (by decide)]
  | gt =>
    rw [if_neg (by decide)]
    by_cases h2 : bytesCompare T (minVal b (r + 1)) = Ordering.gt ∨
        (bytesCompare T (minVal b (r + 1)) = Ordering.eq ∧ r < b.rowGroups.length - 1)
    · rw [if_pos h2]
    · rw [if_neg h2]; simp

/-- What "go right" tells us: the id is at or above the next group's
lower bound, and equal to it only for a non-final group. -/
theorem compareRowGroup_gt_facts (b : Block) (T : ID)
    (hmin : b.meta.MinID ≠ []) (hmax : b.meta.MaxID ≠ [])
    (hne : ∀ rg ∈ b.rowGroups, rg ≠ [])
    (r : Nat) (hr : r < b.rowGroups.length) :
    compareRowGroup b b.rowGroups.length T r = some Ordering.gt →
      idLe (minVal b (r + 1)) T ∧
        (T = minVal b (r + 1) → r + 1 < b.rowGroups.length) := by
  rw [compareRowGroup_eq_some b T hmin hmax hne r hr, Option.some.injEq]
  cases hc1 : bytesCompare T (minVal b r) with
  | lt => rw [if_pos (by decide)]; intro h; cases h
  | eq => rw [if_pos (by decide)]; intro h; cases h
  | gt =>
    rw [if_neg (by decide)]
    cases hc2 : bytesCompare T (minVal b (r + 1)) with
    | lt =>
      rw [if_neg (by simp)]
      intro h; cases h
    | eq =>
      by_cases hrn : r < b.rowGroups.length - 1
      · rw [if_pos (Or.inr ⟨rfl, hrn⟩)]
        intro _
        have hTeq : T = minVal b (r + 1) := (bytesCompare_eq_iff _ _).mp hc2
        constructor
        · rw [hTeq]; exact idLe_refl _
        · intro _; omega
      · rw [if_neg (by simp [hrn])]
        intro h; cases h
    | gt =>
      rw [if_pos (Or.inl rfl)]
      intro _
      constructor
      · unfold idLe
        rw [ne_eq, bytesCompare_gt_iff_lt, hc2]
        decide
      · intro hTeq
        rw [hTeq, bytesCompare_self] at hc2
        cases hc2

/-- Correctness of the tri-state binary search for any comparator that
is total on `[0, n)` and consistent (a "go right" at `r` rules matches
out at and below `r`, a "go left" at `r` rules them out at and above
`r`): with fuel at least the interval width, the loop either returns a
matching index or -1 with no match in the interval. -/
theorem binarySearchGo_spec (compare : Nat → Option Ordering) (n : Nat)
    (htot : ∀ r, r < n → compare r ≠ none)
    (hleft : ∀ r, r < n → compare r = some Ordering.gt →
      ∀ s, s ≤ r → compare s ≠ some Ordering.eq)
    (hright : ∀ r, r < n → compare r = some Ordering.lt →
      ∀ s, r ≤ s → s < n → compare s ≠ some Ordering.eq) :
    ∀ (fuel i j : Nat), j ≤ n → j - i ≤ fuel →
      (∃ r, binarySearchGo compare fuel i j = some (some r) ∧ r < n ∧
          compare r = some Ordering.eq) ∨
      (binarySearchGo compare fuel i j = some none ∧
        ∀ s, i ≤ s → s < j → compare s ≠ some Ordering.eq) := by
  intro fuel
  induction fuel with
  | zero =>
    intro i j hj hfi
    right
    have hij : ¬ i < j := by omega
    constructor
    · simp [binarySearchGo, hij]
    · intro s hs1 hs2
      omega
  | succ fuel ih =>
    intro i j hj hfi
    by_cases hij : i < j
    · have hmidj : (i + j) / 2 < j := by omega
      have hmid : (i + j) / 2 < n := by omega
      have himid : i ≤ (i + j) / 2 := by omega
      simp only [binarySearchGo, if_pos hij]
      cases hc : compare ((i + j) / 2) with
      | none => exact absurd hc (htot _ hmid)
      | some ord =>
        cases ord with
        | eq =>
          left
          exact ⟨(i + j) / 2, rfl, hmid, hc⟩
        | lt =>
          rcases ih i ((i + j) / 2) (by omega) (by omega) with
            ⟨r, hr1, hr2, hr3⟩ | ⟨h1, h2⟩
          · left
            exact ⟨r, hr1, hr2, hr3⟩
          · right
            refine ⟨h1, ?_⟩
            intro s hs1 hs2
            by_cases hsm : s < (i + j) / 2
            · exact h2 s hs1 hsm
            · exact hright _ hmid hc s (by omega) (by omega)
        | gt =>
          rcases ih ((i + j) / 2 + 1) j (by omega) (by omega) with
            ⟨r, hr1, hr2, hr3⟩ | ⟨h1, h2⟩
          · left
            exact ⟨r, hr1, hr2, hr3⟩
          · right
            refine ⟨h1, ?_⟩
            intro s hs1 hs2
            by_cases hsm : (i + j) / 2 + 1 ≤ s
            · exact h2 s hsm hs2
            · exact hleft _ hmid hc s (by omega)
    · right
      constructor
      · simp [binarySearchGo, hij]
      · intro s hs1 hs2
        omega

/-- Brackets of distinct row groups are disjoint: at most one row group
owns a given id. -/
theorem owns_unique (b : Block) (T : ID)
    (hasc : ∀ r, r < b.rowGroups.length → idLt (minVal b r) (minVal b (r + 1))) :
    ∀ r s, r < b.rowGroups.length → s < b.rowGroups.length →
      owns b T r → owns b T s → r = s := by
  have key : ∀ r s, r < s → s < b.rowGroups.length → owns b T r → owns b T s → False := by
    intro r s hrs hsn hr hs
    rcases hr.2 with h2 | ⟨hTeq, hn⟩
    · have hle1 : idLe (minVal b (r + 1)) (minVal b s) :=
        minVal_le_mono b hasc (r + 1) s (by omega) (by omega)
      have hlt : idLt T (minVal b s) := idLt_of_lt_of_le h2 hle1
      have : idLt T T := idLt_of_lt_of_le hlt hs.1
      exact idLt_irrefl T this
    · omega
  intro r s hrn hsn hr hs
  rcases Nat.lt_trichotomy r s with h | h | h
  · exact absurd (key r s h hsn hr hs) (by simp)
  · exact h
  · exact absurd (key s r h hrn hs hr) (by simp)

/-- The bracket search: an owning row group is found; when no row group
owns the id, the search returns -1. -/
theorem search_owner (b : Block) (T : ID)
    (hmin : b.meta.MinID ≠ []) (hmax : b.meta.MaxID ≠ [])
    (hne : ∀ rg ∈ b.rowGroups, rg ≠ [])
    (hasc : ∀ r, r < b.rowGroups.length → idLt (minVal b r) (minVal b (r + 1))) :
    (∀ r, r < b.rowGroups.length → owns b T r →
      binarySearch b.rowGroups.length (compareRowGroup b b.rowGroups.length T) =
        some (some r)) ∧
    ((∀ r, r < b.rowGroups.length → ¬ owns b T r) →
      binarySearch b.rowGroups.length (compareRowGroup b b.rowGroups.length T) =
        some none) := by
  have htot : ∀ r, r < b.rowGroups.length →
      compareRowGroup b b.rowGroups.length T r ≠ none := fun r hr =>
    compareRowGroup_ne_none b T hmin hmax hne r hr
  have hleft : ∀ r, r < b.rowGroups.length →
      compareRowGroup b b.rowGroups.length T r = some Ordering.gt →
      ∀ s, s ≤ r → compareRowGroup b b.rowGroups.length T s ≠ some Ordering.eq := by
    intro r hr hgt s hsr hseq
    have hsn : s < b.rowGroups.length := by omega
    have hso : owns b T s :=
      (compareRowGroup_owns_iff b T hmin hmax hne hasc s hsn).mp hseq
    obtain ⟨hge, hbound⟩ := compareRowGroup_gt_facts b T hmin hmax hne r hr hgt
    rcases hso.2 with h2 | ⟨hTeq, hn⟩
    · have hle1 : idLe (minVal b (s + 1)) (minVal b (r + 1)) :=
        minVal_le_mono b hasc (s + 1) (r + 1) (by omega) (by omega)
      have hlt : idLt T (minVal b (r + 1)) := idLt_of_lt_of_le h2 hle1
      have : idLt T T := idLt_of_lt_of_le hlt hge
      exact idLt_irrefl T this
    · have hsr2 : s = r := by omega
      subst hsr2
      have := hbound hTeq
      omega
  have hright : ∀ r, r < b.rowGroups.length →
      compareRowGroup b b.rowGroups.length T r = some Ordering.lt →
      ∀ s, r ≤ s → s < b.rowGroups.length →
        compareRowGroup b b.rowGroups.length T s ≠ some Ordering.eq := by
    intro r hr hlt s hrs hsn hseq
    have hso : owns b T s :=
      (compareRowGroup_owns_iff b T hmin hmax hne hasc s hsn).mp hseq
    have hTlt : idLt T (minVal b r) :=
      (compareRowGroup_lt_iff b T hmin hmax hne r hr).mp hlt
    have hle1 : idLe (minVal b r) (minVal b s) :=
      minVal_le_mono b hasc r s hrs (by omega)
    have hleT : idLe (minVal b r) T := idLe_trans hle1 hso.1
    have : idLt T T := idLt_of_lt_of_le hTlt hleT
    exact idLt_irrefl T this
  have hspec := binarySearchGo_spec
    (compareRowGroup b b.rowGroups.length T) b.rowGroups.length htot hleft hright
    b.rowGroups.length 0 b.rowGroups.length (by omega) (by omega)
  constructor
  · intro r hrn hro
    rcases hspec with ⟨s, hs1, hs2, hs3⟩ | ⟨h1, h2⟩
    · have hso : owns b T s :=
        (compareRowGroup_owns_iff b T hmin hmax hne hasc s hs2).mp hs3
      have : r = s := owns_unique b T hasc r s hrn hs2 hro hso
      rw [← this] at hs1
      exact hs1
    · exact absurd ((compareRowGroup_owns_iff b T hmin hmax hne hasc r hrn).mpr hro)
        (h2 r (by omega) hrn)
  · intro hno
    rcases hspec with ⟨s, hs1, hs2, hs3⟩ | ⟨h1, h2⟩
    · exact absurd ((compareRowGroup_owns_iff b T hmin hmax hne hasc s hs2).mp hs3)
        (hno s hs2)
    · exact h1

/-- A bloom miss short-circuits `FindTraceByID`. -/
theorem findTraceByID_miss (b : Block) (T : ID) (hbl : b.checkBloom T = false) :
    FindTraceByID b T = (FindResult.notFound, [Event.bloomProbe]) := by
  unfold FindTraceByID
  rw [hbl]
  rfl

/-- A bloom hit with a -1 search result yields `(nil, nil)`. -/
theorem findTraceByID_none (b : Block) (T : ID) (hbl : b.checkBloom T = true)
    (hsearch : binarySearch b.rowGroups.length
      (compareRowGroup b b.rowGroups.length T) = some none) :
    FindTraceByID b T = (FindResult.notFound, [Event.bloomProbe, Event.openColumnar]) := by
  unfold FindTraceByID
  rw [hbl]
  simp only [Bool.not_true, Bool.false_eq_true, if_false]
  rw [hsearch]

/-- A bloom hit with an owning row group found: the result is decided by
the in-group predicate scan. -/
theorem findTraceByID_hit (b : Block) (T : ID) (hbl : b.checkBloom T = true)
    (r : Nat)
    (hsearch : binarySearch b.rowGroups.length
      (compareRowGroup b b.rowGroups.length T) = some (some r))
    (rg : List ID) (hrg : b.rowGroups[r]? = some rg) :
    FindTraceByID b T =
      match rg.findIdx? (fun idv => idv == T) with
      | none => (FindResult.notFound, [Event.bloomProbe, Event.openColumnar])
      | some rel =>
        (FindResult.found (((b.rowGroups.take r).map List.length).sum + rel),
          [Event.bloomProbe, Event.openColumnar]) := by
  unfold FindTraceByID
  rw [hbl]
  simp only [Bool.not_true, Bool.false_eq_true, if_false]
  rw [hsearch]
  dsimp only
  rw [hrg]

/-- On a bloom hit the event trace is always exactly probe-then-open. -/
theorem findTraceByID_events_hit (b : Block) (T : ID) (hbl : b.checkBloom T = true) :
    (FindTraceByID b T).2 = [Event.bloomProbe, Event.openColumnar] := by
  unfold FindTraceByID
  rw [hbl]
  simp only [Bool.not_true, Bool.false_eq_true, if_false]
  cases binarySearch b.rowGroups.length (compareRowGroup b b.rowGroups.length T) with
  | none => rfl
  | some o =>
    cases o with
    | none => rfl
    | some rowGroup =>
      dsimp only
      cases b.rowGroups[rowGroup]? with
      | none => rfl
      | some rg =>
        dsimp only
        cases rg.findIdx? (fun idv => idv == T) with
        | none => rfl
        | some rel => rfl

/-- A membership in the trace-id column makes the predicate scan hit. -/
theorem findIdx?_some_of_mem {l : List ID} {T : ID} (h : T ∈ l) :
    ∃ k, l.findIdx? (fun idv => idv == T) = some k := by
  cases hf : l.findIdx? (fun idv => idv == T) with
  | some k => exact ⟨k, rfl⟩
  | none =>
    rw [List.findIdx?_eq_none_iff] at hf
    have := hf T h
    simp at this

/-- A predicate-scan hit exhibits the id in the trace-id column. -/
theorem mem_of_findIdx?_some {l : List ID} {T : ID} {k : Nat}
    (h : l.findIdx? (fun idv => idv == T) = some k) : T ∈ l := by
  obtain ⟨hlt, hfi⟩ := List.findIdx?_eq_some_iff_findIdx_eq.mp h
  subst hfi
  have hp := @List.findIdx_getElem _ (fun idv => idv == T) l hlt
  have hmem := List.getElem_mem hlt
  rw [eq_of_beq hp] at hmem
  exact hmem

/-- A stored id has an owning row group: the one that holds it
(invariant I2). -/
theorem stored_owns (b : Block) (T : ID)
    (hbr : ∀ r, r < b.rowGroups.length → ∀ id ∈ (b.rowGroups[r]?).getD [],
      idLe (minVal b r) id ∧
        (if r + 1 = b.rowGroups.length then idLe id (minVal b (r + 1))
         else idLt id (minVal b (r + 1)))) :
    storedIn b T → ∃ r rg, r < b.rowGroups.length ∧ b.rowGroups[r]? = some rg ∧
      T ∈ rg ∧ owns b T r := by
  rintro ⟨rg, hrgmem, hTmem⟩
  obtain ⟨r, hrn, hget⟩ := List.getElem_of_mem hrgmem
  have hrg : b.rowGroups[r]? = some rg := by
    rw [List.getElem?_eq_getElem hrn, hget]
  have hbrT := hbr r hrn T (by rw [hrg]; exact hTmem)
  refine ⟨r, rg, hrn, hrg, hTmem, hbrT.1, ?_⟩
  by_cases hlast : r + 1 = b.rowGroups.length
  · rw [if_pos hlast] at hbrT
    rcases (idLe_iff T (minVal b (r + 1))).mp hbrT.2 with h | h
    · exact Or.inl h
    · exact Or.inr ⟨h, hlast⟩
  · rw [if_neg hlast] at hbrT
    exact Or.inl hbrT.2

/-- The search outcome, classified by ownership. -/
theorem search_cases (b : Block) (T : ID)
    (hmin : b.meta.MinID ≠ []) (hmax : b.meta.MaxID ≠ [])
    (hne : ∀ rg ∈ b.rowGroups, rg ≠ [])
    (hasc : ∀ r, r < b.rowGroups.length → idLt (minVal b r) (minVal b (r + 1))) :
    (∃ r, binarySearch b.rowGroups.length (compareRowGroup b b.rowGroups.length T) =
        some (some r) ∧ r < b.rowGroups.length ∧ owns b T r) ∨
    (binarySearch b.rowGroups.length (compareRowGroup b b.rowGroups.length T) =
        some none ∧ ∀ r, r < b.rowGroups.length → ¬ owns b T r) := by
  have htot : ∀ r, r < b.rowGroups.length →
      compareRowGroup b b.rowGroups.length T r ≠ none := fun r hr =>
    compareRowGroup_ne_none b T hmin hmax hne r hr
  have hspec := binarySearchGo_spec
    (compareRowGroup b b.rowGroups.length T) b.rowGroups.length htot
    (fun r hr hgt s hsr hseq => by
      have hsn : s < b.rowGroups.length := by omega
      have hso : owns b T s :=
        (compareRowGroup_owns_iff b T hmin hmax hne hasc s hsn).mp hseq
      obtain ⟨hge, hbound⟩ := compareRowGroup_gt_facts b T hmin hmax hne r hr hgt
      rcases hso.2 with h2 | ⟨hTeq, hn⟩
      · have hle1 : idLe (minVal b (s + 1)) (minVal b (r + 1)) :=
          minVal_le_mono b hasc (s + 1) (r + 1) (by omega) (by omega)
        exact idLt_irrefl T (idLt_of_lt_of_le (idLt_of_lt_of_le h2 hle1) hge)
      · have hsr2 : s = r := by omega
        subst hsr2
        have := hbound hTeq
        omega)
    (fun r hr hlt s hrs hsn hseq => by
      have hso : owns b T s :=
        (compareRowGroup_owns_iff b T hmin hmax hne hasc s hsn).mp hseq
      have hTlt : idLt T (minVal b r) :=
        (compareRowGroup_lt_iff b T hmin hmax hne r hr).mp hlt
      have hle1 : idLe (minVal b r) (minVal b s) :=
        minVal_le_mono b hasc r s hrs (by omega)
      exact idLt_irrefl T (idLt_of_lt_of_le hTlt (idLe_trans hle1 hso.1)))
    b.rowGroups.length 0 b.rowGroups.length (by omega) (by omega)
  rcases hspec with ⟨r, h1, h2, h3⟩ | ⟨h1, h2⟩
  · exact Or.inl ⟨r, h1, h2,
      (compareRowGroup_owns_iff b T hmin hmax hne hasc r h2).mp h3⟩
  · refine Or.inr ⟨h1, fun r hr ho => ?_⟩
    exact h2 r (by omega) hr
      ((compareRowGroup_owns_iff b T hmin hmax hne hasc r hr).mpr ho)

/-- C2: for every block whose minID/maxID bounds and row-group mins are
strictly ascending (with nonempty bounds and row groups, so that every
bound loads) and every trace id `T`: the bracket search returns the
index of any row group owning `T` — ownership placing equality at an
interior boundary with the next group and making only the final upper
bound (`maxID`) inclusive; it returns -1 when `T` lies outside
`[minID, maxID]`, in which case `FindTraceByID` returns `(nil, nil)`;
and at most one comparator index answers 0. -/
theorem c2_rowGroupSearch_owner (b : Block) (T : ID)
    (hmin : b.meta.MinID ≠ []) (hmax : b.meta.MaxID ≠ [])
    (hne : ∀ rg ∈ b.rowGroups, rg ≠ [])
    (hasc : ∀ r, r < b.rowGroups.length → idLt (minVal b r) (minVal b (r + 1))) :
    (∀ r, r < b.rowGroups.length → owns b T r →
      binarySearch b.rowGroups.length (compareRowGroup b b.rowGroups.length T) =
        some (some r)) ∧
    ((idLt T b.meta.MinID ∨ idLt b.meta.MaxID T) →
      binarySearch b.rowGroups.length (compareRowGroup b b.rowGroups.length T) =
          some none ∧
        (FindTraceByID b T).1 = FindResult.notFound) ∧
    (∀ r s, r < b.rowGroups.length → s < b.rowGroups.length →
      compareRowGroup b b.rowGroups.length T r = some Ordering.eq →
      compareRowGroup b b.rowGroups.length T s = some Ordering.eq → r = s) := by
  have hmin0 : minVal b 0 = b.meta.MinID := by
    unfold minVal
    rw [if_pos rfl]
  refine ⟨(search_owner b T hmin hmax hne hasc).1, ?_, ?_⟩
  · intro hout
    have hnoowner : ∀ r, r < b.rowGroups.length → ¬ owns b T r := by
      intro r hr ho
      rcases hout with hlo | hhi
      · have hle0 : idLe (minVal b 0) (minVal b r) :=
          minVal_le_mono b hasc 0 r (by omega) (by omega)
        have hleT : idLe b.meta.MinID T := by
          rw [← hmin0]
          exact idLe_trans hle0 ho.1
        rw [← hmin0] at hlo
        exact idLt_irrefl T (idLt_of_lt_of_le hlo (idLe_trans hle0 ho.1))
      · have hmaxn : minVal b b.rowGroups.length = b.meta.MaxID := by
          unfold minVal
          by_cases h0 : b.rowGroups.length = 0
          · omega
          · rw [if_neg h0, if_pos rfl]
        rcases ho.2 with h2 | ⟨hTeq, hn⟩
        · have hle1 : idLe (minVal b (r + 1)) (minVal b b.rowGroups.length) :=
            minVal_le_mono b hasc (r + 1) b.rowGroups.length (by omega) (by omega)
          have hTmax : idLt T b.meta.MaxID := by
            rw [← hmaxn]
            exact idLt_of_lt_of_le h2 hle1
          exact idLt_irrefl T (idLt_trans hTmax hhi)
        · rw [hn, hmaxn] at hTeq
          rw [hTeq] at hhi
          exact idLt_irrefl b.meta.MaxID hhi
    have hsearch := (search_owner b T hmin hmax hne hasc).2 hnoowner
    refine ⟨hsearch, ?_⟩
    cases hbl : b.checkBloom T with
    | false => rw [findTraceByID_miss b T hbl]
    | true => rw [findTraceByID_none b T hbl hsearch]
  · intro r s hrn hsn hr hs
    exact owns_unique b T hasc r s hrn hsn
      ((compareRowGroup_owns_iff b T hmin hmax hne hasc r hrn).mp hr)
      ((compareRowGroup_owns_iff b T hmin hmax hne hasc s hsn).mp hs)

/-- C1: for every block satisfying the I1/I2 invariants (ascending
loaded bounds, each row group's ids inside its bracket, final bracket
inclusive of maxID, with nonempty bounds and row groups) and a bloom
probe without false negatives, `FindTraceByID` returns a trace exactly
when the id is stored in the block, and returns `(nil, nil)` — a null
result, no error — whenever it is not (including the bloom
false-positive case where the in-group scan matches no row). -/
theorem c1_findTraceByID_found_iff_stored (b : Block) (T : ID)
    (hmin : b.meta.MinID ≠ []) (hmax : b.meta.MaxID ≠ [])
    (hne : ∀ rg ∈ b.rowGroups, rg ≠ [])
    (hasc : ∀ r, r < b.rowGroups.length → idLt (minVal b r) (minVal b (r + 1)))
    (hbr : ∀ r, r < b.rowGroups.length → ∀ id ∈ (b.rowGroups[r]?).getD [],
      idLe (minVal b r) id ∧
        (if r + 1 = b.rowGroups.length then idLe id (minVal b (r + 1))
         else idLt id (minVal b (r + 1))))
    (hbloom : storedIn b T → b.checkBloom T = true) :
    ((∃ row, (FindTraceByID b T).1 = FindResult.found row) ↔ storedIn b T) ∧
    (¬ storedIn b T → (FindTraceByID b T).1 = FindResult.notFound) := by
  have hnot : ¬ storedIn b T → (FindTraceByID b T).1 = FindResult.notFound := by
    intro hns
    cases hbl : b.checkBloom T with
    | false => rw [findTraceByID_miss b T hbl]
    | true =>
      rcases search_cases b T hmin hmax hne hasc with ⟨r, h1, h2, _⟩ | ⟨h1, _⟩
      · obtain ⟨rg, hrg⟩ : ∃ rg, b.rowGroups[r]? = some rg :=
          ⟨b.rowGroups[r], List.getElem?_eq_getElem h2⟩
        rw [findTraceByID_hit b T hbl r h1 rg hrg]
        cases hf : rg.findIdx? (fun idv => idv == T) with
        | none => rfl
        | some rel =>
          have hmemT : T ∈ rg := mem_of_findIdx?_some hf
          exact absurd ⟨rg, List.getElem?_mem hrg, hmemT⟩ hns
      · rw [findTraceByID_none b T hbl h1]
  have hfound : storedIn b T → ∃ row, (FindTraceByID b T).1 = FindResult.found row := by
    intro hst
    have hbl := hbloom hst
    obtain ⟨r, rg, hrn, hrg, hTmem, hown⟩ := stored_owns b T hbr hst
    have hsearch := (search_owner b T hmin hmax hne hasc).1 r hrn hown
    rw [findTraceByID_hit b T hbl r hsearch rg hrg]
    obtain ⟨k, hk⟩ := findIdx?_some_of_mem hTmem
    rw [hk]
    exact ⟨((b.rowGroups.take r).map List.length).sum + k, rfl⟩
  refine ⟨⟨?_, hfound⟩, hnot⟩
  rintro ⟨row, hrow⟩
  by_contra hns
  rw [hnot hns] at hrow
  cases hrow

/-- C3: the bloom probe strictly precedes any column activity; on a
bloom miss `FindTraceByID` returns `(nil, nil)` with only the probe in
its trace — the columnar file is never opened, and since every column
read goes through the opened file, no column read occurs. -/
theorem c3_bloomMiss_notFound_noOpen (b : Block) (T : ID) :
    (b.checkBloom T = false →
      FindTraceByID b T = (FindResult.notFound, [Event.bloomProbe]) ∧
      Event.openColumnar ∉ (FindTraceByID b T).2) ∧
    (FindTraceByID b T).2.head? = some Event.bloomProbe := by
  constructor
  · intro hbl
    rw [findTraceByID_miss b T hbl]
    refine ⟨rfl, ?_⟩
    simp
  · cases hbl : b.checkBloom T with
    | false => rw [findTraceByID_miss b T hbl]; rfl
    | true => rw [findTraceByID_events_hit b T hbl]; rfl

/-- A concrete well-formed block in the shape of spec scenario S2: three
row groups with first ids 0x00, 0x10, 0x20, bounds minID = 0x00 and
inclusive maxID = 0x2F, and a bloom that always reports a hit. -/
def blockW : Block :=
  { meta := { MinID := [0x00], MaxID := [0x2F] }
    rowGroups := [[[0x00], [0x05]], [[0x10], [0x18]], [[0x20], [0x2F]]]
    bloom := fun _ => true }

/-- Witness for C1 at the concrete block and the stored id 0x05. -/
theorem c1_findTraceByID_found_iff_stored_witness :
    ((∃ row, (FindTraceByID blockW [0x05]).1 = FindResult.found row) ↔
        storedIn blockW [0x05]) ∧
    (¬ storedIn blockW [0x05] →
      (FindTraceByID blockW [0x05]).1 = FindResult.notFound) :=
  c1_findTraceByID_found_iff_stored blockW [0x05]
    (by decide) (by decide) (by decide) (by decide) (by decide) (fun _ => rfl)

/-- Witness for C2 at the concrete block: the boundary id 0x10 resolves
to row group 1 (not 0), and 0x30, beyond maxID, resolves to -1 with a
`(nil, nil)` lookup result. -/
theorem c2_rowGroupSearch_owner_witness :
    binarySearch blockW.rowGroups.length
        (compareRowGroup blockW blockW.rowGroups.length [0x10]) = some (some 1) ∧
    (binarySearch blockW.rowGroups.length
        (compareRowGroup blockW blockW.rowGroups.length [0x30]) = some none ∧
      (FindTraceByID blockW [0x30]).1 = FindResult.notFound) :=
  ⟨(c2_rowGroupSearch_owner blockW [0x10] (by decide) (by decide) (by decide)
      (by decide)).1 1 (by decide) (by decide),
    (c2_rowGroupSearch_owner blockW [0x30] (by decide) (by decide) (by decide)
      (by decide)).2.1 (Or.inr (by decide))⟩

/-- A block whose bloom reports a miss for every id. -/
def blockMiss : Block :=
  { meta := { MinID := [0x00], MaxID := [0x01] }
    rowGroups := [[[0x00], [0x01]]]
    bloom := fun _ => false }

/-- Witness for C3 at a concrete all-miss block. -/
theorem c3_bloomMiss_notFound_noOpen_witness :
    (FindTraceByID blockMiss [0xde, 0xad] =
        (FindResult.notFound, [Event.bloomProbe]) ∧
      Event.openColumnar ∉ (FindTraceByID blockMiss [0xde, 0xad]).2) ∧
    (FindTraceByID blockMiss [0xde, 0xad]).2.head? = some Event.bloomProbe :=
  ⟨(c3_bloomMiss_notFound_noOpen blockMiss [0xde, 0xad]).1 rfl,
    (c3_bloomMiss_notFound_noOpen blockMiss [0xde, 0xad]).2⟩

end VParquet

end TempoSpec
